import Mathlib

/-!
Verification of the LocalWebP converter core (React/TypeScript) against its
natural-language specification.

The embedding is shallow: each TypeScript function of the core is translated
into a Lean definition over an explicit data model.  JavaScript numbers are
modelled as exact integers / rationals (`Math.round` on a non-negative value
is `fun q => Int.floor (q + 1/2)`); `Partial<ProcessedImage>` patches are
records of `Option`-wrapped fields; the browser environment (FileReader,
Image decoding, canvas encoding, object URLs) is modelled as an explicit
environment record consumed by the conversion engine.
-/

namespace LocalWebP

/-- The `status` union of `ProcessedImage` in `types.ts`. -/
inductive Status where
  | idle
  | pending
  | converting
  | completed
  | error
deriving DecidableEq, Repr, Inhabited

/-- The parts of a DOM `File` the core reads: `name`, `type` and `size`
(the byte length of the file). -/
structure JsFile where
  name : String
  type : String
  size : Nat
deriving DecidableEq, Repr, Inhabited

/-- A DOM `Blob`: only its byte length is observable to the core
(`blob.size`); the bytes themselves are opaque. -/
structure Blob where
  size : Nat
deriving DecidableEq, Repr, Inhabited

/-- The `ProcessedImage` interface of `types.ts`. Optional fields are
`Option`s (`none` = the JS property is absent/undefined). -/
structure ProcessedImage where
  id : String
  originalFile : JsFile
  status : Status
  webpBlob : Option Blob := none
  webpUrl : Option String := none
  originalSize : Nat
  newSize : Option Nat := none
  error : Option String := none
  progress : Option Int := none
  delayDuration : Option Nat := none
  targetQuality : Option Rat := none
deriving DecidableEq, Repr, Inhabited

/-- A `Partial<ProcessedImage>` update object.  A field holding `none` is
absent from the update; `some v` is a present property with value `v`
(so `some none` models an explicitly-`undefined` property, which the JS
spread `{...img, ...updates}` does copy over, clearing the field). -/
structure Patch where
  id : Option String := none
  originalFile : Option JsFile := none
  status : Option Status := none
  webpBlob : Option (Option Blob) := none
  webpUrl : Option (Option String) := none
  originalSize : Option Nat := none
  newSize : Option (Option Nat) := none
  error : Option (Option String) := none
  progress : Option (Option Int) := none
  delayDuration : Option (Option Nat) := none
  targetQuality : Option (Option Rat) := none
deriving DecidableEq, Repr, Inhabited

/-- The JS spread `{ ...img, ...updates }`: every property present in the
update overwrites the corresponding field of the item. -/
def applyPatch (img : ProcessedImage) (p : Patch) : ProcessedImage where
  id := p.id.getD img.id
  originalFile := p.originalFile.getD img.originalFile
  status := p.status.getD img.status
  webpBlob := p.webpBlob.getD img.webpBlob
  webpUrl := p.webpUrl.getD img.webpUrl
  originalSize := p.originalSize.getD img.originalSize
  newSize := p.newSize.getD img.newSize
  error := p.error.getD img.error
  progress := p.progress.getD img.progress
  delayDuration := p.delayDuration.getD img.delayDuration
  targetQuality := p.targetQuality.getD img.targetQuality

/-! ## App.tsx: batch orchestration commands -/

/-- Embeds `handleFilesAdded` (App.tsx 25-48): computes the batch delay
`Math.min(20000, 3000 + totalNew * 1000)` and appends the new files, each
stamped with that delay and the quality slider value in effect. -/
def handleFilesAdded (globalQuality : Rat) (newFiles : List ProcessedImage)
    (currentImages : List ProcessedImage) : List ProcessedImage :=
  let delay := min 20000 (3000 + newFiles.length * 1000)
  currentImages ++ newFiles.map (fun f =>
    { f with delayDuration := some delay, targetQuality := some globalQuality })

/-- Embeds `handleStartConversion` (App.tsx 50-54): every idle item becomes
pending in one update. -/
def handleStartConversion (imgs : List ProcessedImage) : List ProcessedImage :=
  imgs.map (fun img =>
    if img.status = Status.idle then { img with status := Status.pending } else img)

/-- Embeds `handleUpdateImage` (App.tsx 56-60): patch the item(s) with the given
id, leave the rest untouched. -/
def handleUpdateImage (id : String) (updates : Patch)
    (imgs : List ProcessedImage) : List ProcessedImage :=
  imgs.map (fun img => if img.id = id then applyPatch img updates else img)

/-- Embeds `handleRetry` (App.tsx 62-78): reset the matching item to `pending`,
clear its error, zero its progress, set the retry delay of 3000 ms; the
spread keeps every other field (in particular `targetQuality`). -/
def handleRetry (id : String) (imgs : List ProcessedImage) : List ProcessedImage :=
  imgs.map (fun img =>
    if img.id = id then
      { img with
        status := Status.pending
        error := none
        progress := some 0
        delayDuration := some 3000 }
    else img)

/-! ## Claims C3, C4, C10 -/

/-- C3: every call to `handleFilesAdded` with a batch of `n` new files
appends exactly those files, each assigned
`delayDuration = min 20000 (3000 + 1000 * n)` (identically, since the
formula does not depend on the item), with `targetQuality` set to the
current slider value and all other fields kept; in particular a batch of
3 gets 6000 ms and a batch of 25 gets the 20000 ms cap. -/
theorem handleFilesAdded_delay (q : Rat) (newFiles current : List ProcessedImage) :
    (handleFilesAdded q newFiles current).take current.length = current ∧
    (handleFilesAdded q newFiles current).drop current.length =
      newFiles.map (fun f =>
        { f with
          delayDuration := some (min 20000 (3000 + 1000 * newFiles.length))
          targetQuality := some q }) ∧
    (∀ f ∈ (handleFilesAdded q newFiles current).drop current.length,
        f.delayDuration = some (min 20000 (3000 + 1000 * newFiles.length))) ∧
    (newFiles.length = 3 → min 20000 (3000 + 1000 * newFiles.length) = 6000) ∧
    (newFiles.length = 25 → min 20000 (3000 + 1000 * newFiles.length) = 20000) := by
  unfold handleFilesAdded
  refine ⟨?_, ?_, ?_, ?_, ?_⟩
  · simp [List.take_left]
  · simp only [List.drop_left]
    apply List.map_congr_left
    intro f _
    have : newFiles.length * 1000 = 1000 * newFiles.length := Nat.mul_comm _ _
    simp [this]
  · intro f hf
    simp only [List.drop_left] at hf
    obtain ⟨g, _, rfl⟩ := List.mem_map.mp hf
    simp [Nat.mul_comm]
  · intro h; rw [h]; decide
  · intro h; rw [h]; decide

/-- Witness for C3 at a concrete batch of three files. -/
theorem handleFilesAdded_delay_witness :
    ∀ f ∈ (handleFilesAdded (4/5)
        [{ id := "a", originalFile := ⟨"a.jpg", "image/jpeg", 1⟩,
           status := Status.idle, originalSize := 1 },
         { id := "b", originalFile := ⟨"b.jpg", "image/jpeg", 2⟩,
           status := Status.idle, originalSize := 2 },
         { id := "c", originalFile := ⟨"c.png", "image/png", 3⟩,
           status := Status.idle, originalSize := 3 }] []).drop 0,
      f.delayDuration = some 6000 := by
  intro f hf
  have h := handleFilesAdded_delay (4/5)
    [{ id := "a", originalFile := ⟨"a.jpg", "image/jpeg", 1⟩,
       status := Status.idle, originalSize := 1 },
     { id := "b", originalFile := ⟨"b.jpg", "image/jpeg", 2⟩,
       status := Status.idle, originalSize := 2 },
     { id := "c", originalFile := ⟨"c.png", "image/png", 3⟩,
       status := Status.idle, originalSize := 3 }] []
  have h6 : min 20000 (3000 + 1000 * (3 : Nat)) = 6000 := by decide
  have := h.2.2.1 f hf
  simpa [h6] using this

/-- C4: retry by id sets the matching item(s) to `pending`, clears
`error`, resets `progress` to 0, sets `delayDuration := 3000`, preserves
`targetQuality` and every other field, and leaves non-matching items
completely unchanged; list length and order are preserved. -/
theorem handleRetry_spec (id : String) (imgs : List ProcessedImage) :
    (handleRetry id imgs).length = imgs.length ∧
    ∀ i (hi : i < imgs.length),
      let before := imgs.get ⟨i, hi⟩
      let after := (handleRetry id imgs).get ⟨i, by
        simpa [handleRetry] using hi⟩
      (before.id = id →
        after.status = Status.pending ∧
        after.error = none ∧
        after.progress = some 0 ∧
        after.delayDuration = some 3000 ∧
        after.targetQuality = before.targetQuality ∧
        after.id = before.id ∧
        after.originalFile = before.originalFile ∧
        after.webpBlob = before.webpBlob ∧
        after.webpUrl = before.webpUrl ∧
        after.originalSize = before.originalSize ∧
        after.newSize = before.newSize) ∧
      (before.id ≠ id → after = before) := by
  constructor
  · simp [handleRetry]
  · intro i hi
    simp only [handleRetry, List.get_eq_getElem, List.getElem_map]
    constructor
    · intro hid
      simp [hid]
    · intro hid
      simp [hid]

/-- Witness for C4: retrying the single matching item of a concrete
two-item batch. -/
theorem handleRetry_spec_witness :
    (handleRetry "b"
      [{ id := "a", originalFile := ⟨"a.jpg", "image/jpeg", 1⟩,
         status := Status.completed, originalSize := 1 },
       { id := "b", originalFile := ⟨"b.jpg", "image/jpeg", 2⟩,
         status := Status.error, originalSize := 2, error := some "Conversion failed",
         progress := some 99, delayDuration := some 6000,
         targetQuality := some (4/5) }]).length = 2 ∧
    ((handleRetry "b"
      [{ id := "a", originalFile := ⟨"a.jpg", "image/jpeg", 1⟩,
         status := Status.completed, originalSize := 1 },
       { id := "b", originalFile := ⟨"b.jpg", "image/jpeg", 2⟩,
         status := Status.error, originalSize := 2, error := some "Conversion failed",
         progress := some 99, delayDuration := some 6000,
         targetQuality := some (4/5) }]).get ⟨1, by decide⟩).targetQuality
      = some (4/5) := by
  have h := handleRetry_spec "b"
    [{ id := "a", originalFile := ⟨"a.jpg", "image/jpeg", 1⟩,
       status := Status.completed, originalSize := 1 },
     { id := "b", originalFile := ⟨"b.jpg", "image/jpeg", 2⟩,
       status := Status.error, originalSize := 2, error := some "Conversion failed",
       progress := some 99, delayDuration := some 6000,
       targetQuality := some (4/5) }]
  refine ⟨h.1, ?_⟩
  have h1 := (h.2 1 (by decide)).1 (by decide)
  exact h1.2.2.2.2.1

/-- C10: `handleUpdateImage` preserves list length and order, leaves every
item whose id differs from the target id unchanged, and if no item in the
list carries the target id the whole list is returned unchanged. -/
theorem handleUpdateImage_frame (id : String) (updates : Patch)
    (imgs : List ProcessedImage) :
    (handleUpdateImage id updates imgs).length = imgs.length ∧
    (∀ i (hi : i < imgs.length),
      (imgs.get ⟨i, hi⟩).id ≠ id →
        (handleUpdateImage id updates imgs).get ⟨i, by
          simpa [handleUpdateImage] using hi⟩ = imgs.get ⟨i, hi⟩) ∧
    ((∀ img ∈ imgs, img.id ≠ id) → handleUpdateImage id updates imgs = imgs) := by
  refine ⟨by simp [handleUpdateImage], ?_, ?_⟩
  · intro i hi hne
    simp only [handleUpdateImage, List.get_eq_getElem, List.getElem_map]
    simp only [List.get_eq_getElem] at hne
    simp [hne]
  · intro hall
    unfold handleUpdateImage
    have h : ∀ img ∈ imgs,
        (if img.id = id then applyPatch img updates else img) = img := by
      intro img hm
      simp [hall img hm]
    rw [List.map_congr_left h]
    exact List.map_id' imgs

/-! ## The conversion engine: `convertToWebP` (utils/converter, lines 56-143
of the concatenated source).  Browser facilities are modelled by an
explicit environment: the FileReader outcome and its progress events, the
`Image` decode outcome, the canvas 2d-context availability and the
`canvas.toBlob` output. -/

/-- JS `Math.round` on a non-negative number: floor (q + 1/2). -/
def jsRound (q : Rat) : Int := Int.floor (q + 1/2)

/-- One FileReader `progress` event: `e.lengthComputable`, `e.loaded`,
`e.total`. -/
structure ReadEvent where
  lengthComputable : Bool
  loaded : Nat
  total : Nat
deriving DecidableEq, Repr, Inhabited

/-- The browser-side outcome of one conversion attempt. -/
structure ConvertEnv where
  /-- the FileReader fired `onload` (true) or `onerror` (false) -/
  readOk : Bool
  /-- the `onprogress` events fired before that, in order -/
  readEvents : List ReadEvent
  /-- whether `event.target?.result` was non-empty -/
  resultNonempty : Bool
  /-- the `Image` fired `onload` (true) or `onerror` (false) -/
  decodeOk : Bool
  /-- whether `canvas.getContext('2d')` returned a context -/
  ctxOk : Bool
  /-- the blob handed to the `canvas.toBlob` callback (`none` = encoder
  produced no output) -/
  encodeOut : Option Blob
  /-- the string `URL.createObjectURL` returns for the encoded blob -/
  objectUrl : String
deriving DecidableEq, Repr, Inhabited

/-- Computes `Math.round((e.loaded / e.total) * 10)`: the 0-10 percent of the file
read phase. -/
def readPercent (e : ReadEvent) : Int :=
  jsRound ((e.loaded : Rat) / (e.total : Rat) * 10)

/-- The value reported on simulated-work tick `u` of `N`:
`Math.min(98, Math.round(15 + (u / N) * 83))` — the linear interpolation
from 15 to 98 sampled at the ticks. -/
def tickValue (N u : Nat) : Int :=
  min 98 (jsRound (15 + (u : Rat) / (N : Rat) * 83))

/-- Computes `Math.ceil(duration / 100)` for a natural `duration`. -/
def ceil100 (duration : Nat) : Nat := (duration + 99) / 100

/-- The `setInterval` loop body, made structurally recursive on a fuel
argument (the fuel is always at least the number of remaining ticks, so
the `0`-fuel fallback is never reached): `updates` has been incremented
to `u + 1`; on the final tick (`updates >= totalUpdates`) the loop stops
and reports 99, otherwise it reports the interpolated value and
continues. -/
def tickLoopFuel (N : Nat) : Nat → Nat → List Int
  | 0, _u => [99]
  | fuel + 1, u =>
      if u + 1 ≥ N then [99]
      else tickValue N (u + 1) :: tickLoopFuel N fuel (u + 1)

/-- The `setInterval` loop of the simulated-work phase, entered with
`updates = u`. -/
def tickLoopAux (N u : Nat) : List Int := tickLoopFuel N (N - u) u

theorem tickLoopFuel_eq (N : Nat) :
    ∀ (fuel u : Nat), N ≤ u + fuel + 1 →
      tickLoopFuel N fuel u =
        ((List.range' (u + 1) (N - 1 - u)).map (tickValue N)) ++ [99] := by
  intro fuel
  induction fuel with
  | zero =>
      intro u h
      have h0 : N - 1 - u = 0 := by omega
      simp [tickLoopFuel, h0]
  | succ n ih =>
      intro u h
      unfold tickLoopFuel
      split
      · next hge =>
          have h0 : N - 1 - u = 0 := by omega
          simp [h0]
      · next hlt =>
          rw [ih (u + 1) (by omega)]
          have h1 : N - 1 - u = (N - 1 - (u + 1)) + 1 := by omega
          rw [h1, List.range'_succ]
          simp

/-- The tick loop emits the interpolated ramp for ticks `1 .. N-1` and 99
on the final tick. -/
theorem tickLoopAux_eq (N u : Nat) :
    tickLoopAux N u =
      ((List.range' (u + 1) (N - 1 - u)).map (tickValue N)) ++ [99] :=
  tickLoopFuel_eq N (N - u) u (by omega)

/-- Embeds `convertToWebP(file, quality, duration, onProgress)`: returns the
promise outcome together with the full ordered list of values passed to
the progress side-channel.  Control flow follows the source: initial 0,
read-progress events while `lengthComputable`, 12 on `reader.onload`,
rejection if the reader result is empty or the image fails to decode,
15 on `img.onload`, rejection if no canvas context, the simulated-work
tick loop ending in 99, then `canvas.toBlob`: 100 and resolution on a
blob, rejection otherwise. -/
def convertToWebP (env : ConvertEnv) (quality : Rat) (duration : Nat) :
    Except String Blob × List Int :=
  let pre : List Int :=
    0 :: (env.readEvents.filter (fun e => e.lengthComputable)).map readPercent
  if env.readOk = false then (Except.error "Failed to read file", pre)
  else
    let pre12 := pre ++ [12]
    if env.resultNonempty = false then
      (Except.error "FileReader result is empty", pre12)
    else if env.decodeOk = false then
      (Except.error "Failed to load image", pre12)
    else
      let pre15 := pre12 ++ [15]
      if env.ctxOk = false then
        (Except.error "Could not get canvas context", pre15)
      else
        let ticks := tickLoopAux (ceil100 duration) 0
        match env.encodeOut with
        | some b => (Except.ok b, pre15 ++ ticks ++ [100])
        | none => (Except.error "Conversion failed", pre15 ++ ticks)

/-- C1: on a readable, decodable source with a working context and a
successful encode, the side-channel receives, in order: the initial 0 and
the read-phase percents, then exactly 12 (source buffered), 15 (raster
decoded), the linear 15-to-98 interpolation sampled at ticks 1..N-1 where
N = ceil(d / 100) (the Nth and final 100 ms tick reports 99 instead), then
99, then 100, and the call resolves with the encoded blob. -/
theorem convertToWebP_checkpoints (env : ConvertEnv) (q : Rat) (d : Nat)
    (b : Blob) (hr : env.readOk = true) (hn : env.resultNonempty = true)
    (hd : env.decodeOk = true) (hc : env.ctxOk = true)
    (he : env.encodeOut = some b) :
    (convertToWebP env q d).1 = Except.ok b ∧
    (convertToWebP env q d).2 =
      (0 :: (env.readEvents.filter (fun e => e.lengthComputable)).map readPercent)
        ++ [12, 15]
        ++ (List.range' 1 (ceil100 d - 1)).map (tickValue (ceil100 d))
        ++ [99, 100] ∧
    (d ≤ 100 * ceil100 d ∧ 100 * ceil100 d < d + 100) ∧
    (∀ u, tickValue (ceil100 d) u =
      min 98 (jsRound (15 + (u : Rat) / (ceil100 d : Rat) * 83))) := by
  refine ⟨?_, ?_, ?_, fun u => rfl⟩
  · simp [convertToWebP, hr, hn, hd, hc, he]
  · simp only [convertToWebP, hr, hn, hd, hc, he]
    rw [tickLoopAux_eq]
    simp
  · unfold ceil100
    omega

/-- Witness for C1: a concrete successful conversion with `d = 300`
(three ticks) produces exactly the trace `[0, 12, 15, 43, 70, 99, 100]`. -/
theorem convertToWebP_checkpoints_witness :
    (convertToWebP ⟨true, [], true, true, true, some ⟨3⟩, "blob:demo"⟩
        (4/5) 300).1 = Except.ok ⟨3⟩ ∧
    (convertToWebP ⟨true, [], true, true, true, some ⟨3⟩, "blob:demo"⟩
        (4/5) 300).2 = [0, 12, 15, 43, 70, 99, 100] := by
  have h := convertToWebP_checkpoints
    ⟨true, [], true, true, true, some ⟨3⟩, "blob:demo"⟩
    (4/5) 300 ⟨3⟩ rfl rfl rfl rfl rfl
  refine ⟨h.1, ?_⟩
  rw [h.2.1]
  have t1 : tickValue 3 1 = 43 := by
    unfold tickValue jsRound
    norm_num
  have t2 : tickValue 3 2 = 70 := by
    unfold tickValue jsRound
    norm_num
  have hc : ceil100 300 = 3 := by decide
  rw [hc]
  simp [List.range', t1, t2]

/-! ## Claim C9: monotone progress within one attempt, reset on retry -/

/-- Environment well-formedness: the FileReader facts every real browser
guarantees — in each length-computable progress event the loaded byte
count does not exceed the (positive) total, and the loaded/total ratio is
non-decreasing across successive events. -/
def WFEnv (env : ConvertEnv) : Prop :=
  (∀ e ∈ env.readEvents.filter (fun e => e.lengthComputable),
      e.loaded ≤ e.total ∧ 0 < e.total) ∧
  List.Pairwise (fun a b => a.loaded * b.total ≤ b.loaded * a.total)
    (env.readEvents.filter (fun e => e.lengthComputable))

theorem jsRound_mono {a b : Rat} (h : a ≤ b) : jsRound a ≤ jsRound b :=
  Int.floor_le_floor (by linarith)

theorem readPercent_nonneg (e : ReadEvent) : 0 ≤ readPercent e := by
  unfold readPercent jsRound
  have h : (0 : Rat) ≤ (e.loaded : Rat) / (e.total : Rat) * 10 := by positivity
  exact Int.le_floor.mpr (by push_cast; linarith)

theorem readPercent_le_ten (e : ReadEvent) (h : e.loaded ≤ e.total) :
    readPercent e ≤ 10 := by
  unfold readPercent jsRound
  have hq : (e.loaded : Rat) / (e.total : Rat) ≤ 1 := by
    rcases Nat.eq_zero_or_pos e.total with h0 | hpos
    · simp [h0]
    · exact div_le_one_of_le (by exact_mod_cast h) (by positivity)
  have : ⌊(e.loaded : Rat) / (e.total : Rat) * 10 + 1 / 2⌋ < 11 :=
    Int.floor_lt.mpr (by push_cast; linarith)
  omega

theorem readPercent_mono (a b : ReadEvent) (ha : 0 < a.total) (hb : 0 < b.total)
    (hr : a.loaded * b.total ≤ b.loaded * a.total) :
    readPercent a ≤ readPercent b := by
  unfold readPercent
  apply jsRound_mono
  have hq : (a.loaded : Rat) / (a.total : Rat) ≤ (b.loaded : Rat) / (b.total : Rat) := by
    rw [div_le_div_iff (by exact_mod_cast ha) (by exact_mod_cast hb)]
    exact_mod_cast hr
  linarith

theorem tickValue_ge_15 (N u : Nat) : 15 ≤ tickValue N u := by
  unfold tickValue jsRound
  refine le_min (by norm_num) (Int.le_floor.mpr ?_)
  have h : (0 : Rat) ≤ (u : Rat) / (N : Rat) * 83 := by positivity
  push_cast
  linarith

theorem tickValue_le_98 (N u : Nat) : tickValue N u ≤ 98 := min_le_left _ _

theorem tickValue_mono (N : Nat) {u v : Nat} (h : u ≤ v) :
    tickValue N u ≤ tickValue N v := by
  unfold tickValue
  refine min_le_min (le_refl _) (jsRound_mono ?_)
  rcases Nat.eq_zero_or_pos N with h0 | hpos
  · simp [h0]
  · have hc : (u : Rat) ≤ (v : Rat) := by exact_mod_cast h
    have hN : (0 : Rat) < (N : Rat) := by exact_mod_cast hpos
    have : (u : Rat) / (N : Rat) ≤ (v : Rat) / (N : Rat) :=
      (div_le_div_right hN).mpr hc
    linarith [this]

/-- The read-phase trace `0 :: percents` is non-decreasing and bounded by
10 for a well-formed environment. -/
theorem readTrace_sorted_bounded (env : ConvertEnv) (wf : WFEnv env) :
    List.Pairwise (· ≤ ·)
      ((0 : Int) :: (env.readEvents.filter (fun e => e.lengthComputable)).map readPercent) ∧
    ∀ v ∈ (0 : Int) ::
        (env.readEvents.filter (fun e => e.lengthComputable)).map readPercent,
      0 ≤ v ∧ v ≤ 10 := by
  obtain ⟨hbound, hpair⟩ := wf
  constructor
  · rw [List.pairwise_cons]
    constructor
    · intro b hb
      obtain ⟨e, _, rfl⟩ := List.mem_map.mp hb
      exact readPercent_nonneg e
    · rw [List.pairwise_map]
      refine hpair.imp_of_mem ?_
      intro a b hma hmb hr
      exact readPercent_mono a b (hbound a hma).2 (hbound b hmb).2 hr
  · intro v hv
    rcases List.mem_cons.mp hv with h0 | hm
    · subst h0; exact ⟨le_refl _, by norm_num⟩
    · obtain ⟨e, hme, rfl⟩ := List.mem_map.mp hm
      exact ⟨readPercent_nonneg e, readPercent_le_ten e (hbound e hme).1⟩

/-- The tick ramp over any index window is non-decreasing. -/
theorem tickRamp_sorted (N : Nat) :
    ∀ (k s : Nat), List.Pairwise (· ≤ ·) ((List.range' s k).map (tickValue N)) := by
  intro k
  induction k with
  | zero => intro s; simp
  | succ n ih =>
      intro s
      rw [List.range'_succ, List.map_cons, List.pairwise_cons]
      refine ⟨?_, ih (s + 1)⟩
      intro b hb
      obtain ⟨j, hj, rfl⟩ := List.mem_map.mp hb
      obtain ⟨i, _, rfl⟩ := List.mem_range'.mp hj
      exact tickValue_mono N (by omega)

/-- The simulated-work emissions are non-decreasing, bounded by 15..99,
and end in 99. -/
theorem ticks_sorted_bounded (N : Nat) :
    List.Pairwise (· ≤ ·) (tickLoopAux N 0) ∧
    (∀ v ∈ tickLoopAux N 0, 15 ≤ v ∧ v ≤ 99) := by
  rw [tickLoopAux_eq]
  constructor
  · rw [List.pairwise_append]
    refine ⟨by simpa using tickRamp_sorted N (N - 1 - 0) 1, by simp, ?_⟩
    intro a ha b hb
    obtain ⟨j, _, rfl⟩ := List.mem_map.mp ha
    have h98 := tickValue_le_98 N j
    simp only [List.mem_singleton] at hb
    omega
  · intro v hv
    rcases List.mem_append.mp hv with hm | hm
    · obtain ⟨j, _, rfl⟩ := List.mem_map.mp hm
      exact ⟨tickValue_ge_15 N j, le_trans (tickValue_le_98 N j) (by norm_num)⟩
    · simp only [List.mem_singleton] at hm
      subst hm
      exact ⟨by norm_num, le_refl _⟩

/-- C9: (a) for every attempt in a well-formed browser environment —
whatever its outcome — the sequence of values the engine reports to the
progress side-channel is monotonically non-decreasing; (b) the progress
of an item returns to 0 exactly on the retry command, which also
re-enters `pending`: retried (id-matching) items get `progress = some 0`
and `status = pending`, all others keep their progress and status. -/
theorem progress_monotone_and_retry_reset (env : ConvertEnv) (q : Rat) (d : Nat)
    (wf : WFEnv env) :
    List.Pairwise (· ≤ ·) (convertToWebP env q d).2 ∧
    (∀ (id : String) (imgs : List ProcessedImage),
      (handleRetry id imgs).map (fun im => (im.progress, im.status)) =
        imgs.map (fun im =>
          if im.id = id then ((some 0 : Option Int), Status.pending)
          else (im.progress, im.status))) := by
  constructor
  · obtain ⟨hpre, hbnd⟩ := readTrace_sorted_bounded env wf
    obtain ⟨hticks, htbnd⟩ := ticks_sorted_bounded (ceil100 d)
    have h12 : List.Pairwise (· ≤ ·)
        (((0 : Int) :: (env.readEvents.filter (fun e => e.lengthComputable)).map readPercent)
          ++ [12]) := by
      rw [List.pairwise_append]
      refine ⟨hpre, by simp, ?_⟩
      intro a ha b hb
      simp only [List.mem_singleton] at hb
      have := (hbnd a ha).2
      omega
    have hb12 : ∀ v ∈ ((0 : Int) ::
          (env.readEvents.filter (fun e => e.lengthComputable)).map readPercent) ++ [12],
        v ≤ 12 := by
      intro v hv
      rcases List.mem_append.mp hv with hm | hm
      · have := (hbnd v hm).2; omega
      · simp only [List.mem_singleton] at hm; omega
    have h15 : List.Pairwise (· ≤ ·)
        ((((0 : Int) :: (env.readEvents.filter (fun e => e.lengthComputable)).map readPercent)
          ++ [12]) ++ [15]) := by
      rw [List.pairwise_append]
      refine ⟨h12, by simp, ?_⟩
      intro a ha b hb
      simp only [List.mem_singleton] at hb
      have := hb12 a ha
      omega
    have hb15 : ∀ v ∈ (((0 : Int) ::
          (env.readEvents.filter (fun e => e.lengthComputable)).map readPercent) ++ [12]) ++ [15],
        v ≤ 15 := by
      intro v hv
      rcases List.mem_append.mp hv with hm | hm
      · have := hb12 v hm; omega
      · simp only [List.mem_singleton] at hm; omega
    have hfull : List.Pairwise (· ≤ ·)
        (((((0 : Int) :: (env.readEvents.filter (fun e => e.lengthComputable)).map readPercent)
          ++ [12]) ++ [15]) ++ tickLoopAux (ceil100 d) 0) := by
      rw [List.pairwise_append]
      refine ⟨h15, hticks, ?_⟩
      intro a ha b hb
      have h1 := hb15 a ha
      have h2 := (htbnd b hb).1
      omega
    have hfull100 : List.Pairwise (· ≤ ·)
        ((((((0 : Int) :: (env.readEvents.filter (fun e => e.lengthComputable)).map readPercent)
          ++ [12]) ++ [15]) ++ tickLoopAux (ceil100 d) 0) ++ [100]) := by
      rw [List.pairwise_append]
      refine ⟨hfull, by simp, ?_⟩
      intro a ha b hb
      simp only [List.mem_singleton] at hb
      subst hb
      rcases List.mem_append.mp ha with hm | hm
      · have := hb15 a hm; omega
      · have := (htbnd a hm).2; omega
    rcases hro : env.readOk with _ | _
    · simpa [convertToWebP, hro] using hpre
    · rcases hrn : env.resultNonempty with _ | _
      · simpa [convertToWebP, hro, hrn] using h12
      · rcases hdo : env.decodeOk with _ | _
        · simpa [convertToWebP, hro, hrn, hdo] using h12
        · rcases hco : env.ctxOk with _ | _
          · simpa [convertToWebP, hro, hrn, hdo, hco] using h15
          · rcases heo : env.encodeOut with _ | b
            · simpa [convertToWebP, hro, hrn, hdo, hco, heo, List.append_assoc] using hfull
            · simpa [convertToWebP, hro, hrn, hdo, hco, heo, List.append_assoc] using hfull100
  · intro id imgs
    unfold handleRetry
    rw [List.map_map]
    apply List.map_congr_left
    intro img _
    by_cases h : img.id = id <;> simp [h]

/-- Witness for C9: a concrete attempt with two read-progress events and a
retry on a concrete batch. -/
theorem progress_monotone_and_retry_reset_witness :
    List.Pairwise (· ≤ ·)
      (convertToWebP ⟨true, [⟨true, 1, 2⟩, ⟨true, 2, 2⟩], true, true, true,
        some ⟨3⟩, "blob:demo"⟩ (4/5) 100).2 ∧
    (handleRetry "r"
        [{ id := "r", originalFile := ⟨"x.png", "image/png", 9⟩,
           status := Status.error, originalSize := 9, error := some "Failed to load image",
           progress := some 12 }]).map (fun im => (im.progress, im.status)) =
      [((some 0 : Option Int), Status.pending)] := by
  have h := progress_monotone_and_retry_reset
    ⟨true, [⟨true, 1, 2⟩, ⟨true, 2, 2⟩], true, true, true, some ⟨3⟩, "blob:demo"⟩
    (4/5) 100 (by constructor <;> decide)
  refine ⟨h.1, ?_⟩
  have h2 := h.2 "r"
    [{ id := "r", originalFile := ⟨"x.png", "image/png", 9⟩,
       status := Status.error, originalSize := 9, error := some "Failed to load image",
       progress := some 12 }]
  rw [h2]
  decide

/-! ## Claim C2: the observable states of one conversion attempt

`ImageRow.convert` (source lines 206-232 after `DropZone`) drives one
attempt: it first patches `{status: converting, progress: 0, error:
undefined}`, then forwards every engine progress value as a `{progress}`
patch, and finally patches either the completion record (with
`progress: 100`) or the error record.  Each patch is one `setImages`
update, i.e. one observable state. -/

/-- The initial patch of `convert`:
`{ status: 'converting', progress: 0, error: undefined }`. -/
def convertStartPatch : Patch :=
  { status := some Status.converting, progress := some (some 0), error := some none }

/-- The per-emission patch `{ progress }`. -/
def progressPatch (p : Int) : Patch := { progress := some (some p) }

/-- The success patch: `{ status: 'completed', webpBlob, webpUrl,
newSize: blob.size, progress: 100 }`. -/
def completePatch (b : Blob) (url : String) : Patch :=
  { status := some Status.completed
    webpBlob := some (some b)
    webpUrl := some (some url)
    newSize := some (some b.size)
    progress := some (some 100) }

/-- The failure patch: `{ status: 'error', error: message }`. -/
def errorPatch (msg : String) : Patch :=
  { status := some Status.error, error := some (some msg) }

/-- The ordered patches `convert` issues for one attempt. -/
def convertPatches (env : ConvertEnv) (q : Rat) (d : Nat) : List Patch :=
  convertStartPatch ::
    ((convertToWebP env q d).2.map progressPatch ++
      [match (convertToWebP env q d).1 with
       | Except.ok b => completePatch b env.objectUrl
       | Except.error e => errorPatch e])

/-- All observable states of the item across one attempt, starting from
the state in which the attempt begins. -/
def attemptStates (img : ProcessedImage) (env : ConvertEnv) (q : Rat) (d : Nat) :
    List ProcessedImage :=
  List.scanl applyPatch img (convertPatches env q d)

/-- A concrete pending item used by counterexamples and witnesses. -/
def pendingItem : ProcessedImage :=
  { id := "p"
    originalFile := ⟨"p.jpg", "image/jpeg", 7⟩
    status := Status.pending
    originalSize := 7
    progress := some 0
    delayDuration := some 100 }

/-- An all-success environment with no read-progress events. -/
def okEnv : ConvertEnv :=
  ⟨true, [], true, true, true, some ⟨3⟩, "blob:demo"⟩

/-- C2 counterexample: in the successful attempt on `pendingItem`
(duration 100 ms, one tick), the observable state right after the
engine's final `onProgress(100)` — and right before the completion patch
— has `progress = 100` while `status` is still `converting`, refuting
the claim that `progress == 100` occurs only with `status ==
'completed'`. -/
theorem progress100_while_converting_counterexample :
    ((attemptStates pendingItem okEnv (4/5) 100).getD 6 default).status =
        Status.converting ∧
    ((attemptStates pendingItem okEnv (4/5) 100).getD 6 default).progress =
        some 100 := by
  decide

/-- The item state after one `{ progress }` patch. -/
def progressState (base : ProcessedImage) (v : Int) : ProcessedImage :=
  { base with progress := some v }

/-- The shape of the scanl over a progress-patch run followed by one
final patch. -/
theorem scanl_patch_shape (vs : List Int) (base : ProcessedImage) (fin : Patch) :
    List.scanl applyPatch base (vs.map progressPatch ++ [fin]) =
      (base :: vs.map (progressState base)) ++
        [applyPatch (List.foldl progressState base vs) fin] := by
  induction vs generalizing base with
  | nil => simp [List.scanl]
  | cons v vs ih =>
      simp only [List.map_cons, List.cons_append, List.scanl_cons, List.foldl_cons]
      have hb : applyPatch base (progressPatch v) = progressState base v := rfl
      rw [hb, ih]
      rfl

/-- The progress field after folding a run of progress patches is the
base's progress or one of the run's values. -/
theorem foldl_progress_cases (vs : List Int) (base : ProcessedImage) :
    (List.foldl progressState base vs).progress = base.progress ∨
    ∃ v ∈ vs, (List.foldl progressState base vs).progress = some v := by
  induction vs generalizing base with
  | nil => exact Or.inl rfl
  | cons v vs ih =>
      rcases ih (progressState base v) with h | ⟨w, hw, hp⟩
      · exact Or.inr ⟨v, List.mem_cons_self _ _, by simpa [progressState] using h⟩
      · exact Or.inr ⟨w, List.mem_cons_of_mem _ hw, by simpa using hp⟩

/-- A pointwise property of every element gives the corresponding
head-only chain. -/
theorem chain_of_forall {α : Type} {P : α → Prop} :
    ∀ (l : List α), (∀ v ∈ l, P v) → List.Chain' (fun v _ => P v) l := by
  intro l
  induction l with
  | nil => intro _; simp
  | cons a l ih =>
      intro h
      rw [List.chain'_cons']
      exact ⟨fun b _ => h a (List.mem_cons_self _ _),
        ih (fun v hv => h v (List.mem_cons_of_mem _ hv))⟩

/-- Branch-wise bounds of the progress trace: every value reported
before a failure is at most 99, and a success trace is a run of values
at most 99 followed by the single final 100. -/
theorem convert_trace_bounds (env : ConvertEnv) (q : Rat) (d : Nat)
    (wf : WFEnv env) :
    (∀ e, (convertToWebP env q d).1 = Except.error e →
      ∀ v ∈ (convertToWebP env q d).2, v ≤ 99) ∧
    (∀ b, (convertToWebP env q d).1 = Except.ok b →
      ∃ body, (convertToWebP env q d).2 = body ++ [100] ∧ ∀ v ∈ body, v ≤ 99) := by
  obtain ⟨_, hbnd⟩ := readTrace_sorted_bounded env wf
  obtain ⟨_, htbnd⟩ := ticks_sorted_bounded (ceil100 d)
  have hpre99 : ∀ v ∈ (0 : Int) ::
      (env.readEvents.filter (fun e => e.lengthComputable)).map readPercent,
      v ≤ 99 := fun v hv => le_trans (hbnd v hv).2 (by norm_num)
  have hbody : ∀ v ∈ ((((0 : Int) ::
        (env.readEvents.filter (fun e => e.lengthComputable)).map readPercent)
        ++ [12]) ++ [15]) ++ tickLoopAux (ceil100 d) 0, v ≤ 99 := by
    intro v hv
    rcases List.mem_append.mp hv with hm | hm
    · rcases List.mem_append.mp hm with hm2 | hm2
      · rcases List.mem_append.mp hm2 with hm3 | hm3
        · exact hpre99 v hm3
        · simp only [List.mem_singleton] at hm3; omega
      · simp only [List.mem_singleton] at hm2; omega
    · exact (htbnd v hm).2
  rcases hro : env.readOk with _ | _
  · have htr : (convertToWebP env q d).2 = (0 : Int) ::
        (env.readEvents.filter (fun e => e.lengthComputable)).map readPercent := by
      simp [convertToWebP, hro]
    have hres : (convertToWebP env q d).1 = Except.error "Failed to read file" := by
      simp [convertToWebP, hro]
    refine ⟨fun e _ v hv => ?_, fun b hb => ?_⟩
    · rw [htr] at hv
      exact hpre99 v hv
    · rw [hres] at hb; exact absurd hb (by simp)
  · rcases hrn : env.resultNonempty with _ | _
    · have htr : (convertToWebP env q d).2 = ((0 : Int) ::
          (env.readEvents.filter (fun e => e.lengthComputable)).map readPercent) ++ [12] := by
        simp [convertToWebP, hro, hrn]
      have hres : (convertToWebP env q d).1 =
          Except.error "FileReader result is empty" := by
        simp [convertToWebP, hro, hrn]
      refine ⟨fun e _ v hv => ?_, fun b hb => ?_⟩
      · rw [htr] at hv
        rcases List.mem_append.mp hv with hm | hm
        · exact hpre99 v hm
        · simp only [List.mem_singleton] at hm; omega
      · rw [hres] at hb; exact absurd hb (by simp)
    · rcases hdo : env.decodeOk with _ | _
      · have htr : (convertToWebP env q d).2 = ((0 : Int) ::
            (env.readEvents.filter (fun e => e.lengthComputable)).map readPercent) ++ [12] := by
          simp [convertToWebP, hro, hrn, hdo]
        have hres : (convertToWebP env q d).1 =
            Except.error "Failed to load image" := by
          simp [convertToWebP, hro, hrn, hdo]
        refine ⟨fun e _ v hv => ?_, fun b hb => ?_⟩
        · rw [htr] at hv
          rcases List.mem_append.mp hv with hm | hm
          · exact hpre99 v hm
          · simp only [List.mem_singleton] at hm; omega
        · rw [hres] at hb; exact absurd hb (by simp)
      · rcases hco : env.ctxOk with _ | _
        · have htr : (convertToWebP env q d).2 = (((0 : Int) ::
              (env.readEvents.filter (fun e => e.lengthComputable)).map readPercent)
              ++ [12]) ++ [15] := by
            simp [convertToWebP, hro, hrn, hdo, hco]
          have hres : (convertToWebP env q d).1 =
              Except.error "Could not get canvas context" := by
            simp [convertToWebP, hro, hrn, hdo, hco]
          refine ⟨fun e _ v hv => ?_, fun b hb => ?_⟩
          · rw [htr] at hv
            rcases List.mem_append.mp hv with hm | hm
            · rcases List.mem_append.mp hm with hm2 | hm2
              · exact hpre99 v hm2
              · simp only [List.mem_singleton] at hm2; omega
            · simp only [List.mem_singleton] at hm; omega
          · rw [hres] at hb; exact absurd hb (by simp)
        · rcases heo : env.encodeOut with _ | b0
          · have htr : (convertToWebP env q d).2 = ((((0 : Int) ::
                (env.readEvents.filter (fun e => e.lengthComputable)).map readPercent)
                ++ [12]) ++ [15]) ++ tickLoopAux (ceil100 d) 0 := by
              simp [convertToWebP, hro, hrn, hdo, hco, heo, List.append_assoc]
            have hres : (convertToWebP env q d).1 =
                Except.error "Conversion failed" := by
              simp [convertToWebP, hro, hrn, hdo, hco, heo]
            refine ⟨fun e _ v hv => ?_, fun b hb => ?_⟩
            · rw [htr] at hv
              exact hbody v hv
            · rw [hres] at hb; exact absurd hb (by simp)
          · have htr : (convertToWebP env q d).2 = (((((0 : Int) ::
                (env.readEvents.filter (fun e => e.lengthComputable)).map readPercent)
                ++ [12]) ++ [15]) ++ tickLoopAux (ceil100 d) 0) ++ [100] := by
              simp [convertToWebP, hro, hrn, hdo, hco, heo, List.append_assoc]
            have hres : (convertToWebP env q d).1 = Except.ok b0 := by
              simp [convertToWebP, hro, hrn, hdo, hco, heo]
            refine ⟨fun e he => ?_, fun b hb => ?_⟩
            · rw [hres] at he; exact absurd he (by simp)
            · exact ⟨_, htr, hbody⟩

/-- The amended C2 relation between consecutive observable states: a
state showing `progress = 100` is either already completed, or it is the
transient converting state that the completion patch immediately
replaces. -/
def progressInv (st st' : ProcessedImage) : Prop :=
  st.progress = some 100 →
    st.status = Status.completed ∨
    (st.status = Status.converting ∧ st'.status = Status.completed)

/-- The pair-chain part of the amended C2 invariant, proved for the
explicit state-list shape shared by both attempt outcomes. -/
theorem chain_states_shape (img fin : ProcessedImage) (vs : List Int)
    (h0 : img.progress ≠ some 100)
    (hvs : List.Chain' (fun v _ => v ≠ (100 : Int)) vs)
    (hlastvs : ∀ x, vs.getLast? = some x → x = 100 → fin.status = Status.completed) :
    List.Chain' progressInv
      ((img :: applyPatch img convertStartPatch ::
        vs.map (progressState (applyPatch img convertStartPatch))) ++ [fin]) := by
  rw [List.chain'_append]
  refine ⟨?_, List.chain'_singleton _, ?_⟩
  · rw [List.chain'_cons]
    refine ⟨fun hc => absurd hc h0, ?_⟩
    rw [List.chain'_cons']
    have h1p : (applyPatch img convertStartPatch).progress = some 0 := rfl
    refine ⟨fun y _ hc => ?_, ?_⟩
    · rw [h1p] at hc; exact absurd hc (by simp)
    · rw [List.chain'_map]
      refine hvs.imp ?_
      intro a c hne hc
      have hpa : (progressState (applyPatch img convertStartPatch) a).progress =
          some a := rfl
      rw [hpa] at hc
      simp only [Option.some.injEq] at hc
      exact absurd hc hne
  · intro x hx y hy
    simp only [List.head?_cons, Option.mem_def, Option.some.injEq] at hy
    subst hy
    cases vs with
    | nil =>
        simp only [List.map_nil, List.getLast?_cons_cons, List.getLast?_singleton,
          Option.mem_def, Option.some.injEq] at hx
        subst hx
        intro hc
        have h1p : (applyPatch img convertStartPatch).progress = some 0 := rfl
        rw [h1p] at hc
        exact absurd hc (by simp)
    | cons v0 vrest =>
        rw [List.map_cons, List.getLast?_cons_cons, List.getLast?_cons_cons,
          ← List.map_cons, List.getLast?_map] at hx
        rcases hvl : (v0 :: vrest).getLast? with _ | w
        · exact absurd hvl (by simp)
        · rw [hvl] at hx
          simp only [Option.map_some', Option.mem_def, Option.some.injEq] at hx
          subst hx
          intro hc
          have hpw : (progressState (applyPatch img convertStartPatch) w).progress =
              some w := rfl
          rw [hpw] at hc
          simp only [Option.some.injEq] at hc
          exact Or.inr ⟨rfl, hlastvs w hvl hc⟩

/-- C2 (amended): within one attempt in a well-formed environment,
started on an item not already showing `progress = 100`, every
observable state with `progress = 100` has `status = completed`, except
the single transient state between the engine's final `100` emission and
the completion patch, which has `status = converting` and is immediately
followed by the completed state; the attempt's final state never shows
`progress = 100` without `status = completed`. -/
theorem attempt_progress100_amended (img : ProcessedImage) (env : ConvertEnv)
    (q : Rat) (d : Nat) (wf : WFEnv env) (h0 : img.progress ≠ some 100) :
    List.Chain' progressInv (attemptStates img env q d) ∧
    (∀ st, (attemptStates img env q d).getLast? = some st →
      st.progress = some 100 → st.status = Status.completed) := by
  have hbounds := convert_trace_bounds env q d wf
  cases hres : (convertToWebP env q d).1 with
  | error e =>
      have hb99 := hbounds.1 e hres
      have hEq : attemptStates img env q d =
          (img :: applyPatch img convertStartPatch ::
            (convertToWebP env q d).2.map
              (progressState (applyPatch img convertStartPatch))) ++
          [applyPatch
            (List.foldl progressState (applyPatch img convertStartPatch)
              (convertToWebP env q d).2) (errorPatch e)] := by
        unfold attemptStates convertPatches
        rw [List.scanl_cons, hres, scanl_patch_shape]
        simp
      rw [hEq]
      have hfin_ne : (applyPatch
          (List.foldl progressState (applyPatch img convertStartPatch)
            (convertToWebP env q d).2) (errorPatch e)).progress ≠ some 100 := by
        show (List.foldl progressState (applyPatch img convertStartPatch)
            (convertToWebP env q d).2).progress ≠ some 100
        rcases foldl_progress_cases (convertToWebP env q d).2
            (applyPatch img convertStartPatch) with h | ⟨v, hv, hp⟩
        · rw [h]
          show (some (0 : Int)) ≠ some 100
          simp
        · rw [hp]
          intro hc
          simp only [Option.some.injEq] at hc
          have := hb99 v hv
          omega
      constructor
      · apply chain_states_shape img _ _ h0
        · exact chain_of_forall _ (fun v hv => by have := hb99 v hv; omega)
        · intro x hx hx100
          have := hb99 x (List.mem_of_mem_getLast? (by rw [hx]; rfl))
          omega
      · intro st hst
        rw [List.getLast?_concat] at hst
        simp only [Option.some.injEq] at hst
        subst hst
        intro hp
        exact absurd hp hfin_ne
  | ok b =>
      obtain ⟨body, hT, hbody99⟩ := hbounds.2 b hres
      have hEq : attemptStates img env q d =
          (img :: applyPatch img convertStartPatch ::
            (convertToWebP env q d).2.map
              (progressState (applyPatch img convertStartPatch))) ++
          [applyPatch
            (List.foldl progressState (applyPatch img convertStartPatch)
              (convertToWebP env q d).2) (completePatch b env.objectUrl)] := by
        unfold attemptStates convertPatches
        rw [List.scanl_cons, hres, scanl_patch_shape]
        simp
      rw [hEq]
      have hfin_st : (applyPatch
          (List.foldl progressState (applyPatch img convertStartPatch)
            (convertToWebP env q d).2)
          (completePatch b env.objectUrl)).status = Status.completed := rfl
      constructor
      · apply chain_states_shape img _ _ h0
        · rw [hT, List.chain'_append]
          refine ⟨chain_of_forall _ (fun v hv => by have := hbody99 v hv; omega),
            List.chain'_singleton _, ?_⟩
          intro x hx y _
          have := hbody99 x (List.mem_of_mem_getLast? hx)
          omega
        · intro x _ _
          exact hfin_st
      · intro st hst
        rw [List.getLast?_concat] at hst
        simp only [Option.some.injEq] at hst
        subst hst
        intro _
        exact hfin_st

/-- Witness for the amended C2 theorem: a concrete successful attempt
satisfies the chain invariant, and its final state is completed. -/
theorem attempt_progress100_amended_witness :
    List.Chain' progressInv (attemptStates pendingItem okEnv (4/5) 100) ∧
    (∀ st, (attemptStates pendingItem okEnv (4/5) 100).getLast? = some st →
      st.progress = some 100 → st.status = Status.completed) :=
  attempt_progress100_amended pendingItem okEnv (4/5) 100
    (by constructor <;> decide) (by decide)

/-- Witness for C10: patching a missing id leaves a concrete list
unchanged. -/
theorem handleUpdateImage_frame_witness :
    handleUpdateImage "zz" { progress := some (some 50) }
      [{ id := "a", originalFile := ⟨"a.jpg", "image/jpeg", 1⟩,
         status := Status.idle, originalSize := 1 }] =
      [{ id := "a", originalFile := ⟨"a.jpg", "image/jpeg", 1⟩,
         status := Status.idle, originalSize := 1 }] :=
  (handleUpdateImage_frame "zz" { progress := some (some 50) }
    [{ id := "a", originalFile := ⟨"a.jpg", "image/jpeg", 1⟩,
       status := Status.idle, originalSize := 1 }]).2.2 (by decide)

/-! ## Claim C5: ingestion validation (`DropZone.processFiles`, lines
14-48) -/

/-- JS `String.prototype.toLowerCase` restricted to ASCII (filename
extensions are ASCII; the check compares against ASCII literals). -/
def lowerChar (c : Char) : Char :=
  if 'A' ≤ c ∧ c ≤ 'Z' then Char.ofNat (c.toNat + 32) else c

/-- The code-unit sequence of `s.toLowerCase()`. -/
def lowerStr (s : String) : List Char := s.data.map lowerChar

/-- JS `String.prototype.endsWith` on code-unit sequences. -/
def endsWithList (l suffix : List Char) : Bool := List.isSuffixOf suffix l

/-- The JPEG acceptance check of `processFiles`:
`file.type === 'image/jpeg' || name.endsWith('.jpg') ||
name.endsWith('.jpeg')` on the lower-cased name. -/
def isJpegFile (f : JsFile) : Bool :=
  f.type == "image/jpeg" || endsWithList (lowerStr f.name) (".jpg").data ||
    endsWithList (lowerStr f.name) (".jpeg").data

/-- The PNG acceptance check of `processFiles`. -/
def isPngFile (f : JsFile) : Bool :=
  f.type == "image/png" || endsWithList (lowerStr f.name) (".png").data

/-- A source is accepted iff either check passes. -/
def validFile (f : JsFile) : Bool := isJpegFile f || isPngFile f

/-- Embeds `processFiles`: partition the candidates, count the rejected ones,
and construct one `idle` item per accepted source with `originalSize =
file.size`.  `generateId` lives in the (external) `utils/format` module;
it is modelled as an opaque per-position id supply `gid`. -/
def processFiles (gid : Nat → String) (files : List JsFile) :
    List ProcessedImage × Nat :=
  ((files.filter validFile).mapIdx fun i f =>
      { id := gid i
        originalFile := f
        status := Status.idle
        originalSize := f.size },
   (files.filter fun f => !(validFile f)).length)

/-- C5: a source is accepted iff its declared type or (lower-cased)
filename extension matches JPEG or PNG; the ignored count is exactly the
number of rejected sources (accepted + ignored = total); and every
emitted item has `status = idle`, carries its source with `originalSize`
equal to the source's byte length, and has no conversion state
(no result, no error, no progress) — ingestion starts nothing. -/
theorem processFiles_spec (gid : Nat → String) (files : List JsFile) :
    (∀ f, validFile f = true ↔
      (f.type = "image/jpeg" ∨ endsWithList (lowerStr f.name) (".jpg").data = true ∨
        endsWithList (lowerStr f.name) (".jpeg").data = true ∨
        f.type = "image/png" ∨ endsWithList (lowerStr f.name) (".png").data = true)) ∧
    (processFiles gid files).1.length = (files.filter validFile).length ∧
    (processFiles gid files).2 = (files.filter fun f => !(validFile f)).length ∧
    (processFiles gid files).1.length + (processFiles gid files).2 = files.length ∧
    (∀ img ∈ (processFiles gid files).1,
      img.status = Status.idle ∧
      img.originalFile ∈ files ∧
      validFile img.originalFile = true ∧
      img.originalSize = img.originalFile.size ∧
      img.webpBlob = none ∧ img.error = none ∧ img.progress = none) := by
  refine ⟨?_, ?_, rfl, ?_, ?_⟩
  · intro f
    simp only [validFile, isJpegFile, isPngFile, Bool.or_eq_true, beq_iff_eq,
      or_assoc]
  · simp [processFiles]
  · simp only [processFiles, List.length_mapIdx]
    induction files with
    | nil => rfl
    | cons f fs ih =>
        by_cases h : validFile f = true
        · simp [List.filter_cons, h]
          omega
        · simp only [Bool.not_eq_true] at h
          simp [List.filter_cons, h]
          omega
  · intro img hmem
    simp only [processFiles] at hmem
    rw [List.mem_mapIdx] at hmem
    obtain ⟨i, hi, heq⟩ := hmem
    have hf : (files.filter validFile)[i] ∈ files.filter validFile :=
      List.getElem_mem hi
    have hmemf := List.mem_of_mem_filter hf
    have hvalid := List.of_mem_filter hf
    rw [← heq]
    exact ⟨rfl, hmemf, hvalid, rfl, rfl, rfl, rfl⟩

/-- Witness for C5: one JPEG, one PNG (type-less, by extension), one
rejected GIF. -/
theorem processFiles_spec_witness :
    (processFiles (fun i => toString i)
        [⟨"a.jpg", "image/jpeg", 10⟩, ⟨"B.PNG", "", 20⟩,
         ⟨"c.gif", "image/gif", 30⟩]).1.length = 2 ∧
    (processFiles (fun i => toString i)
        [⟨"a.jpg", "image/jpeg", 10⟩, ⟨"B.PNG", "", 20⟩,
         ⟨"c.gif", "image/gif", 30⟩]).2 = 1 ∧
    validFile ⟨"c.gif", "image/gif", 30⟩ = false := by
  have h := processFiles_spec (fun i => toString i)
    [⟨"a.jpg", "image/jpeg", 10⟩, ⟨"B.PNG", "", 20⟩, ⟨"c.gif", "image/gif", 30⟩]
  refine ⟨?_, ?_, ?_⟩
  · rw [h.2.1]; decide
  · rw [h.2.2.1]; decide
  · decide

/-! ## Claim C6: export bundling with collision-safe naming
(`handleDownloadAll`, App.tsx 81-118) -/

/-- Decimal digits of a natural number (JS template-literal rendering of
the collision counter), structurally recursive on a fuel that always
suffices. -/
def natDigitsFuel : Nat → Nat → List Char
  | 0, _ => []
  | fuel + 1, n =>
      if n < 10 then [Nat.digitChar n]
      else natDigitsFuel fuel (n / 10) ++ [Nat.digitChar (n % 10)]

/-- Decimal digit string of `n`. -/
def natDigits (n : Nat) : List Char := natDigitsFuel (n + 1) n

theorem natDigitsFuel_congr : ∀ (f₁ f₂ n : Nat), n < f₁ → n < f₂ →
    natDigitsFuel f₁ n = natDigitsFuel f₂ n := by
  intro f₁
  induction f₁ with
  | zero => intro f₂ n h _; omega
  | succ f ih =>
      intro f₂ n h1 h2
      cases f₂ with
      | zero => omega
      | succ g =>
          simp only [natDigitsFuel]
          by_cases hn : n < 10
          · simp [hn]
          · simp only [hn, if_false]
            have hlt : n / 10 < n := Nat.div_lt_self (by omega) (by omega)
            rw [ih g (n / 10) (by omega) (by omega)]

theorem natDigits_unfold (n : Nat) :
    natDigits n = if n < 10 then [Nat.digitChar n]
      else natDigits (n / 10) ++ [Nat.digitChar (n % 10)] := by
  unfold natDigits
  by_cases h : n < 10
  · simp [natDigitsFuel, h]
  · simp only [natDigitsFuel, h, if_false]
    have hlt : n / 10 < n := Nat.div_lt_self (by omega) (by omega)
    rw [natDigitsFuel_congr n (n / 10 + 1) (n / 10) (by omega) (by omega)]
    rfl

theorem natDigits_ne_nil (n : Nat) : natDigits n ≠ [] := by
  rw [natDigits_unfold]
  by_cases h : n < 10 <;> simp [h]

theorem digitChar_inj_lt10 : ∀ a, a < 10 → ∀ b, b < 10 →
    Nat.digitChar a = Nat.digitChar b → a = b := by decide

theorem natDigits_inj : ∀ a b, natDigits a = natDigits b → a = b := by
  intro a
  induction a using Nat.strong_induction_on with
  | _ a ih =>
      intro b h
      rw [natDigits_unfold a, natDigits_unfold b] at h
      by_cases ha : a < 10 <;> by_cases hb : b < 10
      · rw [if_pos ha, if_pos hb] at h
        simp only [List.cons.injEq, and_true] at h
        exact digitChar_inj_lt10 a ha b hb h
      · exfalso
        rw [if_pos ha, if_neg hb] at h
        have hlen := congrArg List.length h
        simp only [List.length_append, List.length_cons, List.length_nil] at hlen
        have hne : (natDigits (b / 10)).length ≠ 0 := by
          intro h0
          exact natDigits_ne_nil (b / 10) (List.length_eq_zero.mp h0)
        omega
      · exfalso
        rw [if_neg ha, if_pos hb] at h
        have hlen := congrArg List.length h
        simp only [List.length_append, List.length_cons, List.length_nil] at hlen
        have hne : (natDigits (a / 10)).length ≠ 0 := by
          intro h0
          exact natDigits_ne_nil (a / 10) (List.length_eq_zero.mp h0)
        omega
      · rw [if_neg ha, if_neg hb] at h
        obtain ⟨h1, h2⟩ := List.append_inj' h (by simp)
        have hmod : a % 10 = b % 10 := by
          have hma : a % 10 < 10 := Nat.mod_lt _ (by omega)
          have hmb : b % 10 < 10 := Nat.mod_lt _ (by omega)
          simp only [List.cons.injEq, and_true] at h2
          exact digitChar_inj_lt10 _ hma _ hmb h2
        have hlt : a / 10 < a := Nat.div_lt_self (by omega) (by omega)
        have hdiv : a / 10 = b / 10 := ih (a / 10) hlt (b / 10) h1
        omega

/-- The JS string of a natural number. -/
def natToString (n : Nat) : String := ⟨natDigits n⟩

/-- The `k`-th candidate file name tried by the collision loop:
`base.webp` first, then `base_1.webp`, `base_2.webp`, … -/
def mkCand (baseName : String) (k : Nat) : String :=
  if k = 0 then baseName ++ ".webp"
  else baseName ++ "_" ++ natToString k ++ ".webp"

theorem mkCand_inj (baseName : String) : Function.Injective (mkCand baseName) := by
  intro j k h
  unfold mkCand at h
  by_cases hj : j = 0 <;> by_cases hk : k = 0
  · omega
  · exfalso
    rw [if_pos hj, if_neg hk] at h
    have hd := congrArg String.data h
    simp only [String.data_append] at hd
    have hlen := congrArg List.length hd
    simp only [List.length_append, List.length_cons, List.length_nil] at hlen
    omega
  · exfalso
    rw [if_neg hj, if_pos hk] at h
    have hd := congrArg String.data h
    simp only [String.data_append] at hd
    have hlen := congrArg List.length hd
    simp only [List.length_append, List.length_cons, List.length_nil] at hlen
    omega
  · rw [if_neg hj, if_neg hk] at h
    have hd := congrArg String.data h
    simp only [String.data_append] at hd
    have h1 := List.append_cancel_right hd
    have h2 := List.append_cancel_left h1
    exact natDigits_inj j k h2

/-- The `while (usedNames.has(fileName))` loop, structurally recursive on
a fuel that always suffices: try candidate `k`, advance while taken. -/
def chooseNameAux (used : List String) (baseName : String) : Nat → Nat → String
  | 0, k => mkCand baseName k
  | fuel + 1, k =>
      if mkCand baseName k ∈ used then chooseNameAux used baseName fuel (k + 1)
      else mkCand baseName k

/-- The collision-resolved name for `baseName` given the names already
used: the first unused candidate. -/
def chooseName (used : List String) (baseName : String) : String :=
  chooseNameAux used baseName (used.length + 1) 0

theorem chooseNameAux_not_mem (used : List String) (baseName : String) :
    ∀ fuel k,
      ((List.range' k fuel).filter
        (fun j => decide (mkCand baseName j ∈ used))).length < fuel →
      chooseNameAux used baseName fuel k ∉ used := by
  intro fuel
  induction fuel with
  | zero => intro k h; exact absurd h (Nat.not_lt_zero _)
  | succ f ih =>
      intro k h
      simp only [chooseNameAux]
      by_cases hmem : mkCand baseName k ∈ used
      · rw [if_pos hmem]
        apply ih
        rw [List.range'_succ, List.filter_cons] at h
        simp [hmem] at h
        omega
      · rw [if_neg hmem]
        exact hmem

theorem chooseName_not_mem (used : List String) (baseName : String) :
    chooseName used baseName ∉ used := by
  apply chooseNameAux_not_mem
  by_contra hcon
  push_neg at hcon
  have hle : ((List.range' 0 (used.length + 1)).filter
      (fun j => decide (mkCand baseName j ∈ used))).length ≤ used.length + 1 := by
    calc ((List.range' 0 (used.length + 1)).filter
        (fun j => decide (mkCand baseName j ∈ used))).length
        ≤ (List.range' 0 (used.length + 1)).length := List.length_filter_le _ _
      _ = used.length + 1 := by simp
  have heq : ((List.range' 0 (used.length + 1)).filter
      (fun j => decide (mkCand baseName j ∈ used))).length = used.length + 1 :=
    le_antisymm hle hcon
  have hfe : (List.range' 0 (used.length + 1)).filter
      (fun j => decide (mkCand baseName j ∈ used)) =
      List.range' 0 (used.length + 1) :=
    (List.filter_sublist _).eq_of_length (by rw [heq, List.length_range'])
  have hall : ∀ j ∈ List.range' 0 (used.length + 1), mkCand baseName j ∈ used := by
    intro j hj
    have := List.filter_eq_self.mp hfe j hj
    exact of_decide_eq_true this
  have hnodupC : ((List.range' 0 (used.length + 1)).map (mkCand baseName)).Nodup :=
    (List.nodup_range' 0 (used.length + 1)).map (mkCand_inj baseName)
  have hsubC : (List.range' 0 (used.length + 1)).map (mkCand baseName) ⊆ used := by
    intro x hx
    obtain ⟨j, hj, rfl⟩ := List.mem_map.mp hx
    exact hall j hj
  have h1 : ((List.range' 0 (used.length + 1)).map (mkCand baseName)).toFinset.card =
      used.length + 1 := by
    rw [List.toFinset_card_of_nodup hnodupC]
    simp
  have hsubF : ((List.range' 0 (used.length + 1)).map (mkCand baseName)).toFinset ⊆
      used.toFinset := by
    intro x hx
    rw [List.mem_toFinset] at hx ⊢
    exact hsubC hx
  have h2 := Finset.card_le_card hsubF
  have h3 := List.toFinset_card_le (l := used)
  omega

/-- Embeds `img.originalFile.name.replace(/\.[^/.]+$/, "")`: drop a final
dot-extension (a nonempty trailing run without `.` or `/`, preceded by a
dot); otherwise return the name unchanged. -/
def stripExt (s : String) : String :=
  let r := s.data.reverse
  let ext := r.takeWhile (fun c => !(c == '.') && !(c == '/'))
  if ext.isEmpty then s
  else
    match r.drop ext.length with
    | '.' :: rest => String.mk rest.reverse
    | _ => s

/-- One step of the `completedImages.forEach` loop: derive the base
name, resolve collisions against the names already used, and append the
zip entry. -/
def zipStep (acc : List (String × Blob) × List String) (img : ProcessedImage) :
    List (String × Blob) × List String :=
  let baseName := stripExt img.originalFile.name
  let fileName := chooseName acc.2 baseName
  (acc.1 ++ [(fileName, img.webpBlob.getD ⟨0⟩)], acc.2 ++ [fileName])

/-- The zip's entries, in encounter order, for the given completed
items. -/
def zipEntries (completedImages : List ProcessedImage) : List (String × Blob) :=
  (completedImages.foldl zipStep ([], [])).1

theorem zip_fold_inv :
    ∀ (imgs : List ProcessedImage) (acc : List (String × Blob) × List String),
      acc.1.map Prod.fst = acc.2 → acc.2.Nodup →
      ((imgs.foldl zipStep acc).1.map Prod.fst = (imgs.foldl zipStep acc).2 ∧
        (imgs.foldl zipStep acc).2.Nodup ∧
        (imgs.foldl zipStep acc).1.length = acc.1.length + imgs.length) := by
  intro imgs
  induction imgs with
  | nil => intro acc h1 h2; exact ⟨h1, h2, by simp⟩
  | cons img imgs ih =>
      intro acc h1 h2
      simp only [List.foldl_cons]
      have hstep1 : (zipStep acc img).1.map Prod.fst = (zipStep acc img).2 := by
        simp [zipStep, h1]
      have hstep2 : (zipStep acc img).2.Nodup := by
        simp only [zipStep]
        rw [List.nodup_append]
        refine ⟨h2, List.nodup_singleton _, ?_⟩
        intro a ha hb
        simp only [List.mem_singleton] at hb
        subst hb
        exact chooseName_not_mem acc.2 (stripExt img.originalFile.name) ha
      obtain ⟨ha, hb, hc⟩ := ih (zipStep acc img) hstep1 hstep2
      refine ⟨ha, hb, ?_⟩
      rw [hc]
      simp [zipStep]
      omega

/-- C6: the export bundler derives each entry name from the source name
by stripping the final extension and appending `.webp`, resolving
collisions with `_1`, `_2`, … in encounter order (`zipStep` /
`chooseName`); for every batch the resulting entry names are pairwise
distinct and there is exactly one entry per completed item; two
completed items both named `photo.jpg` export as `photo.webp` and
`photo_1.webp`. -/
theorem zipEntries_naming :
    (∀ completedImages : List ProcessedImage,
      ((zipEntries completedImages).map Prod.fst).Nodup ∧
      (zipEntries completedImages).length = completedImages.length) ∧
    stripExt "photo.jpg" = "photo" ∧
    (zipEntries
      [{ id := "1", originalFile := ⟨"photo.jpg", "image/jpeg", 5⟩,
         status := Status.completed, originalSize := 5, webpBlob := some ⟨3⟩ },
       { id := "2", originalFile := ⟨"photo.jpg", "image/jpeg", 6⟩,
         status := Status.completed, originalSize := 6,
         webpBlob := some ⟨4⟩ }]).map Prod.fst =
      ["photo.webp", "photo_1.webp"] := by
  refine ⟨?_, by decide, by decide⟩
  intro completedImages
  obtain ⟨ha, hb, hc⟩ := zip_fold_inv completedImages ([], []) rfl List.nodup_nil
  refine ⟨?_, ?_⟩
  · rw [zipEntries, ha]
    exact hb
  · rw [zipEntries, hc]
    simp

/-! ## Claim C7: the export command never mutates the batch -/

/-- The externally visible outcome of one `handleDownloadAll` call. -/
inductive DownloadEffect where
  /-- early return: zero completed items, nothing downloaded, no alert -/
  | nothing
  /-- the archive entries handed to the download sink -/
  | downloaded (entries : List (String × Blob))
  /-- the single `alert` of the catch block -/
  | alertFailure
deriving DecidableEq, Repr, Inhabited

/-- Embeds `handleDownloadAll` (App.tsx 81-118) as a state transformer: it reads
the current items, filters the completed ones carrying a blob, and
either returns early, downloads the built archive, or (when archive
construction / handoff throws, modelled by `zipOk = false`) alerts once.
It issues no `setImages`, so the returned item list is the input. -/
def handleDownloadAll (zipOk : Bool) (imgs : List ProcessedImage) :
    List ProcessedImage × DownloadEffect :=
  let completedImages := imgs.filter
    (fun img => decide (img.status = Status.completed) && img.webpBlob.isSome)
  if completedImages.length = 0 then (imgs, DownloadEffect.nothing)
  else if zipOk then (imgs, DownloadEffect.downloaded (zipEntries completedImages))
  else (imgs, DownloadEffect.alertFailure)

/-- C7: export never mutates the item list; with zero completed items it
is a no-op producing no archive and no alert; and when archive
construction or the handoff fails it produces exactly the one failure
alert (never a partial archive) and still leaves the items untouched. -/
theorem handleDownloadAll_frame (zipOk : Bool) (imgs : List ProcessedImage) :
    (handleDownloadAll zipOk imgs).1 = imgs ∧
    ((imgs.filter (fun img =>
        decide (img.status = Status.completed) && img.webpBlob.isSome)).length = 0 →
      (handleDownloadAll zipOk imgs).2 = DownloadEffect.nothing) ∧
    (zipOk = false →
      ∀ es, (handleDownloadAll zipOk imgs).2 ≠ DownloadEffect.downloaded es) ∧
    (zipOk = false →
      (imgs.filter (fun img =>
        decide (img.status = Status.completed) && img.webpBlob.isSome)).length ≠ 0 →
      (handleDownloadAll zipOk imgs).2 = DownloadEffect.alertFailure) := by
  unfold handleDownloadAll
  by_cases h0 : (imgs.filter (fun img =>
      decide (img.status = Status.completed) && img.webpBlob.isSome)).length = 0
  · rw [if_pos h0]
    exact ⟨rfl, fun _ => rfl, fun _ es => by simp, fun _ hne => absurd h0 hne⟩
  · rw [if_neg h0]
    cases zipOk
    · rw [if_neg (by simp)]
      exact ⟨rfl, fun hc => absurd hc h0, fun _ es => by simp, fun _ _ => rfl⟩
    · rw [if_pos rfl]
      exact ⟨rfl, fun hc => absurd hc h0, fun hfalse => by simp at hfalse,
        fun hfalse => by simp at hfalse⟩

/-- Witness for C7: a batch with one completed and one idle item, under
a failing archive build. -/
theorem handleDownloadAll_frame_witness :
    (handleDownloadAll false
      [{ id := "1", originalFile := ⟨"photo.jpg", "image/jpeg", 5⟩,
         status := Status.completed, originalSize := 5, webpBlob := some ⟨3⟩ },
       { id := "2", originalFile := ⟨"b.png", "image/png", 6⟩,
         status := Status.idle, originalSize := 6 }]).1 =
      [{ id := "1", originalFile := ⟨"photo.jpg", "image/jpeg", 5⟩,
         status := Status.completed, originalSize := 5, webpBlob := some ⟨3⟩ },
       { id := "2", originalFile := ⟨"b.png", "image/png", 6⟩,
         status := Status.idle, originalSize := 6 }] ∧
    (handleDownloadAll false
      [{ id := "1", originalFile := ⟨"photo.jpg", "image/jpeg", 5⟩,
         status := Status.completed, originalSize := 5, webpBlob := some ⟨3⟩ },
       { id := "2", originalFile := ⟨"b.png", "image/png", 6⟩,
         status := Status.idle, originalSize := 6 }]).2 =
      DownloadEffect.alertFailure := by
  have h := handleDownloadAll_frame false
    [{ id := "1", originalFile := ⟨"photo.jpg", "image/jpeg", 5⟩,
       status := Status.completed, originalSize := 5, webpBlob := some ⟨3⟩ },
     { id := "2", originalFile := ⟨"b.png", "image/png", 6⟩,
       status := Status.idle, originalSize := 6 }]
  exact ⟨h.1, h.2.2.2 rfl (by decide)⟩

/-! ## Claim C8: the status transition graph

The commands available in the source: the start button / `s` shortcut
(`handleStartConversion`), the Retry button — rendered only for an item
with `status === 'error'` (ImageRow) — and the engine patches issued by
`ImageRow.convert`, which starts on a `pending` item (its `useEffect`
guard) and patches a `converting` item thereafter (per §5 of the spec,
the driving task is the only writer of its item). Ids are unique at
ingestion, so the guards hold for every id-matching item. -/
inductive Step : List ProcessedImage → List ProcessedImage → Prop where
  | startAll (s : List ProcessedImage) : Step s (handleStartConversion s)
  | retry (id : String) (s : List ProcessedImage)
      (h : ∀ img ∈ s, img.id = id → img.status = Status.error) :
      Step s (handleRetry id s)
  | beginConvert (id : String) (s : List ProcessedImage)
      (h : ∀ img ∈ s, img.id = id → img.status = Status.pending) :
      Step s (handleUpdateImage id convertStartPatch s)
  | engineProgress (id : String) (p : Int) (s : List ProcessedImage)
      (h : ∀ img ∈ s, img.id = id → img.status = Status.converting) :
      Step s (handleUpdateImage id (progressPatch p) s)
  | finishOk (id : String) (b : Blob) (url : String) (s : List ProcessedImage)
      (h : ∀ img ∈ s, img.id = id → img.status = Status.converting) :
      Step s (handleUpdateImage id (completePatch b url) s)
  | finishErr (id : String) (e : String) (s : List ProcessedImage)
      (h : ∀ img ∈ s, img.id = id → img.status = Status.converting) :
      Step s (handleUpdateImage id (errorPatch e) s)

/-- The edges of the §4.2 transition graph (plus staying put):
`idle → pending`, `error → pending` (the only re-entrant edge),
`pending → converting`, `converting → completed | error`. -/
def edgeOK (a b : Status) : Prop :=
  a = b ∨ (a = Status.idle ∧ b = Status.pending) ∨
    (a = Status.error ∧ b = Status.pending) ∨
    (a = Status.pending ∧ b = Status.converting) ∨
    (a = Status.converting ∧ b = Status.completed) ∨
    (a = Status.converting ∧ b = Status.error)

theorem step_length_edges (s s' : List ProcessedImage) (hs : Step s s') :
    s'.length = s.length ∧
    ∀ i (hi : i < s.length) (hi' : i < s'.length),
      edgeOK (s.get ⟨i, hi⟩).status (s'.get ⟨i, hi'⟩).status := by
  cases hs with
  | startAll s =>
      refine ⟨by simp [handleStartConversion], ?_⟩
      intro i hi hi'
      simp only [handleStartConversion, List.get_eq_getElem, List.getElem_map]
      by_cases h : s[i].status = Status.idle
      · rw [if_pos h]
        exact Or.inr (Or.inl ⟨h, rfl⟩)
      · rw [if_neg h]
        exact Or.inl rfl
  | retry id s h =>
      refine ⟨by simp [handleRetry], ?_⟩
      intro i hi hi'
      simp only [handleRetry, List.get_eq_getElem, List.getElem_map]
      by_cases hid : s[i].id = id
      · rw [if_pos hid]
        have herr := h s[i] (List.getElem_mem hi) hid
        exact Or.inr (Or.inr (Or.inl ⟨herr, rfl⟩))
      · rw [if_neg hid]
        exact Or.inl rfl
  | beginConvert id s h =>
      refine ⟨by simp [handleUpdateImage], ?_⟩
      intro i hi hi'
      simp only [handleUpdateImage, List.get_eq_getElem, List.getElem_map]
      by_cases hid : s[i].id = id
      · rw [if_pos hid]
        have hp := h s[i] (List.getElem_mem hi) hid
        exact Or.inr (Or.inr (Or.inr (Or.inl ⟨hp, rfl⟩)))
      · rw [if_neg hid]
        exact Or.inl rfl
  | engineProgress id p s h =>
      refine ⟨by simp [handleUpdateImage], ?_⟩
      intro i hi hi'
      simp only [handleUpdateImage, List.get_eq_getElem, List.getElem_map]
      by_cases hid : s[i].id = id
      · rw [if_pos hid]
        exact Or.inl rfl
      · rw [if_neg hid]
        exact Or.inl rfl
  | finishOk id b url s h =>
      refine ⟨by simp [handleUpdateImage], ?_⟩
      intro i hi hi'
      simp only [handleUpdateImage, List.get_eq_getElem, List.getElem_map]
      by_cases hid : s[i].id = id
      · rw [if_pos hid]
        have hc := h s[i] (List.getElem_mem hi) hid
        exact Or.inr (Or.inr (Or.inr (Or.inr (Or.inl ⟨hc, rfl⟩))))
      · rw [if_neg hid]
        exact Or.inl rfl
  | finishErr id e s h =>
      refine ⟨by simp [handleUpdateImage], ?_⟩
      intro i hi hi'
      simp only [handleUpdateImage, List.get_eq_getElem, List.getElem_map]
      by_cases hid : s[i].id = id
      · rw [if_pos hid]
        have hc := h s[i] (List.getElem_mem hi) hid
        exact Or.inr (Or.inr (Or.inr (Or.inr (Or.inr ⟨hc, rfl⟩))))
      · rw [if_neg hid]
        exact Or.inl rfl

/-- C8: every available command — start-all, guarded per-item retry, and
the engine's per-attempt patches — moves each item's status along an
edge of the transition graph (or leaves it unchanged); consequently,
under any sequence of commands, a completed item stays completed (there
is no `completed → *` edge). -/
theorem status_transition_graph :
    (∀ s s', Step s s' → s'.length = s.length ∧
      ∀ i (hi : i < s.length) (hi' : i < s'.length),
        edgeOK (s.get ⟨i, hi⟩).status (s'.get ⟨i, hi'⟩).status) ∧
    (∀ s s', Relation.ReflTransGen Step s s' → s'.length = s.length ∧
      ∀ i (hi : i < s.length) (hi' : i < s'.length),
        (s.get ⟨i, hi⟩).status = Status.completed →
        (s'.get ⟨i, hi'⟩).status = Status.completed) := by
  refine ⟨step_length_edges, ?_⟩
  intro s s' hrel
  induction hrel with
  | refl => exact ⟨rfl, fun i hi hi' hc => by simpa using hc⟩
  | tail hab hbc ih =>
      rename_i b c
      obtain ⟨hlen1, hkeep⟩ := ih
      obtain ⟨hlen2, hedges⟩ := step_length_edges b c hbc
      refine ⟨by omega, ?_⟩
      intro i hi hi' hcomp
      have hib : i < b.length := by omega
      have hb := hkeep i hi hib hcomp
      have he := hedges i hib hi'
      rcases he with h | h | h | h | h | h
      · rw [← h]; exact hb
      · rw [hb] at h; exact absurd h.1 (by simp)
      · rw [hb] at h; exact absurd h.1 (by simp)
      · rw [hb] at h; exact absurd h.1 (by simp)
      · rw [hb] at h; exact absurd h.1 (by simp)
      · rw [hb] at h; exact absurd h.1 (by simp)

/-- A concrete idle one-item batch for the C8 witness. -/
def idleBatchW : List ProcessedImage :=
  [{ id := "w", originalFile := ⟨"w.png", "image/png", 2⟩,
     status := Status.idle, originalSize := 2 }]

/-- Witness for C8: the start-all command on a concrete one-item batch
takes the idle item along an edge of the graph. -/
theorem status_transition_graph_witness :
    edgeOK ((idleBatchW.get ⟨0, by decide⟩).status)
      (((handleStartConversion idleBatchW).get ⟨0, by decide⟩).status) := by
  have h := status_transition_graph.1 idleBatchW _ (Step.startAll idleBatchW)
  exact h.2 0 (by decide) (by decide)

end LocalWebP
